import Mathlib

/-!
# Verification of the Hetzner-Web traffic accounting and remediation engine

This file is a shallow embedding, in Lean 4, of the core logic of the
Hetzner-Web repository (`src/main.py` and `src/automation/telegram_bot.py`),
together with theorems settling the frozen claims about it.

Embedding conventions:

* Python `Decimal` values quantized to three decimal places (`_quantize_tb`,
  `_bytes_to_tb`) are represented in fixed point, as integers counting
  thousandths of a terabyte (milli-TB, `ℤ`).  Every `Decimal` that the
  aggregation code stores or sums is such a 3-place quantized value, so
  `_quantize_tb` on an already-quantized value is the identity and the only
  genuine rounding happens inside `_bytes_to_tb`, modelled by
  `roundHalfUpMilli` over `ℚ`.
* Raw byte counters (floats in the JSON state) are modelled as `ℚ`; absent
  readings (`None`) are `Option ℚ`.
* Python dicts are modelled as association lists in insertion order
  (`List (String × β)`); `d.get(k)` is `alookup`, `d.setdefault`/in-place
  update is `setUpd`, and `d[k] = d.get(k, 0) + v` is `bump`.
* Results of network calls (Hetzner API, Cloudflare, Telegram) are inputs of
  the model ("oracles"): a `Bool` for success of a send/delete, a record for
  a rebuild result, and so on.  Threading and sleeping are out of the model;
  loops are modelled by their per-iteration body, folded over a list of
  successive readings.
-/

/-- Python `ROUND_HALF_UP` quantization of a rational number of terabytes to
three decimal places, returning the number of milli-TB.  `ROUND_HALF_UP`
rounds halves away from zero. -/
def roundHalfUpMilli (x : ℚ) : ℤ :=
  if 0 ≤ x then ⌊x * 1000 + 1 / 2⌋ else -⌊-(x * 1000) + 1 / 2⌋

/-- `_bytes_to_tb` from `src/main.py`: bytes to terabytes, quantized to three
decimal places with `ROUND_HALF_UP`; in fixed point, bytes to milli-TB. -/
def bytesToTb (b : ℚ) : ℤ :=
  roundHalfUpMilli (b / 1024 ^ 4)

/-- First-match association-list lookup: Python `d.get(k)`. -/
def alookup {β : Type} (k : String) : List (String × β) → Option β
  | [] => none
  | (k', v) :: rest => if k' = k then some v else alookup k rest

/-- One server's entry inside a stored hourly snapshot:
`{"name": ..., "outbound_bytes": ..., "inbound_bytes": ...}`.  Absent counter
values (failed provider reads) are `none`. -/
structure SrvData where
  name : String
  outbound : Option ℚ
  inbound : Option ℚ
  deriving DecidableEq, Repr

/-- A stored snapshot: a dict from server id (a string) to per-server data. -/
abbrev Snapshot := List (String × SrvData)

/-- The `"hourly"` part of the persisted report state: a dict from hour key
`"YYYY-MM-DD HH:00"` to snapshot, in insertion order. -/
abbrev HourlySeries := List (String × Snapshot)

/-- The persisted report state file
`{"last_time": ..., "servers": ..., "hourly": ...}`; absent fields of the
JSON object are `none` / `[]`. -/
structure ReportState where
  last_time : Option String
  servers : Snapshot
  hourly : HourlySeries
  deriving DecidableEq, Repr

/-- `TelegramBot._record_hourly_snapshot` from
`src/automation/telegram_bot.py`: load the state, return unchanged if the
hour key is already present, otherwise store the freshly collected snapshot
under the hour key and save.  `snap` is the oracle for
`_collect_traffic_snapshot()`. -/
def recordHourlySnapshot (st : ReportState) (hourKey : String) (snap : Snapshot) :
    ReportState :=
  if (alookup hourKey st.hourly).isSome then st
  else { st with hourly := st.hourly ++ [(hourKey, snap)] }

/-- `TelegramBot._send_scheduled_report` from
`src/automation/telegram_bot.py`, restricted to its effect on the persisted
state: it first records the hourly snapshot for the current hour (reading
`snapRec` from the provider), re-loads the state, sends the report text
(no state effect), and finally saves
`{"last_time": now, "servers": current snapshot, "hourly": state["hourly"]}`.
`snapCur` is the oracle for the second `_collect_traffic_snapshot()`. -/
def sendScheduledReport (st0 : ReportState) (hourKey : String)
    (snapRec snapCur : Snapshot) (nowStr : String) : ReportState :=
  let st1 := recordHourlySnapshot st0 hourKey snapRec
  { last_time := some nowStr, servers := snapCur, hourly := st1.hourly }

/-- C8: recording an hourly snapshot is idempotent on the hour key: if the
hour key is already present the stored state is unchanged (never
overwritten); if it is absent, exactly the one new entry is appended; and a
second recording under the same key (with any snapshot) is a no-op. -/
theorem record_snapshot_idempotent :
    (∀ (st : ReportState) (k : String) (s v : Snapshot),
      alookup k st.hourly = some v → recordHourlySnapshot st k s = st)
    ∧ (∀ (st : ReportState) (k : String) (s : Snapshot),
      alookup k st.hourly = none →
        (recordHourlySnapshot st k s).hourly = st.hourly ++ [(k, s)])
    ∧ (∀ (st : ReportState) (k : String) (s s' : Snapshot),
      recordHourlySnapshot (recordHourlySnapshot st k s) k s' =
        recordHourlySnapshot st k s) := by
  have hmem : ∀ (h : HourlySeries) (k : String) (s : Snapshot),
      alookup k (h ++ [(k, s)]) = some ((alookup k h).getD s) := by
    intro h k s
    induction h with
    | nil => simp [alookup]
    | cons p rest ih =>
      by_cases hk : p.1 = k <;> simp [alookup, hk, ih]
  refine ⟨?_, ?_, ?_⟩
  · intro st k s v hv
    simp [recordHourlySnapshot, hv]
  · intro st k s hnone
    simp [recordHourlySnapshot, hnone]
  · intro st k s s'
    by_cases hk : (alookup k st.hourly).isSome
    · simp [recordHourlySnapshot, hk]
    · simp only [recordHourlySnapshot, hk, if_neg, Bool.false_eq_true,
        not_false_eq_true, if_false]
      simp [hmem st.hourly k s]

/-- Witness for `record_snapshot_idempotent` at a concrete state. -/
theorem record_snapshot_idempotent_witness :
    recordHourlySnapshot
        (recordHourlySnapshot ⟨none, [], []⟩ "2024-01-01 00:00" [])
        "2024-01-01 00:00" [("1", ⟨"web", some 7, none⟩)] =
      recordHourlySnapshot ⟨none, [], []⟩ "2024-01-01 00:00" [] :=
  record_snapshot_idempotent.2.2 ⟨none, [], []⟩ "2024-01-01 00:00" []
    [("1", ⟨"web", some 7, none⟩)]

/-- C10: sending a scheduled traffic report replaces `last_time` and
`servers` in the persisted state but preserves the stored hourly series: the
saved `"hourly"` mapping is the prior one, plus at most the current hour's
entry (added only when the hour key was absent). -/
theorem scheduled_report_frame (st0 : ReportState) (hourKey : String)
    (snapRec snapCur : Snapshot) (nowStr : String) :
    (sendScheduledReport st0 hourKey snapRec snapCur nowStr).last_time = some nowStr
    ∧ (sendScheduledReport st0 hourKey snapRec snapCur nowStr).servers = snapCur
    ∧ (((sendScheduledReport st0 hourKey snapRec snapCur nowStr).hourly = st0.hourly
          ∧ (alookup hourKey st0.hourly).isSome)
        ∨ ((sendScheduledReport st0 hourKey snapRec snapCur nowStr).hourly
              = st0.hourly ++ [(hourKey, snapRec)]
          ∧ alookup hourKey st0.hourly = none)) := by
  refine ⟨rfl, rfl, ?_⟩
  by_cases hk : (alookup hourKey st0.hourly).isSome
  · exact Or.inl ⟨by simp [sendScheduledReport, recordHourlySnapshot, hk], hk⟩
  · refine Or.inr ⟨by simp [sendScheduledReport, recordHourlySnapshot, hk], ?_⟩
    exact Option.not_isSome_iff_eq_none.mp hk

/-! ## Remediation: `HetznerClient.rebuild_server` and `_perform_rebuild` -/

/-- A provider snapshot image, as returned by the Hetzner `images` API:
its id and its `"created"` timestamp (an ISO string; lexicographic order on
these strings is chronological order). -/
structure SnapImage where
  id : ℕ
  created : String
  deriving DecidableEq, Repr

/-- `HetznerClient.get_snapshots` from `src/main.py`: the provider's raw
snapshot list, sorted by the `"created"` key, newest first.  Python's
`list.sort(key=..., reverse=True)`; `raw` is the oracle for the API reply. -/
def getSnapshots (raw : List SnapImage) : List SnapImage :=
  raw.insertionSort (fun a b => b.created ≤ a.created)

/-- The details of the existing server that `rebuild_server` reads before
destroying it (`name`, `server_type`, `datacenter.location`). -/
structure SrvInfo where
  name : String
  server_type : String
  location : String
  deriving DecidableEq, Repr

/-- The replacement server returned by a successful create call. -/
structure NewSrv where
  id : ℕ
  ip : String
  deriving DecidableEq, Repr

/-- The result of `HetznerClient.rebuild_server`, instrumented with the
image that was resolved and whether the destructive delete call was ever
issued. -/
structure RebuildCall where
  success : Bool
  error : Option String
  new_server_id : Option ℕ
  new_ip : Option String
  snapshot_id : Option ℕ
  imageResolved : Option ℕ
  deleteAttempted : Bool
  deriving DecidableEq, Repr

/-- Python truthiness of an optional integer config value (`None` and `0`
are falsy), as used by `snapshot_id_map.get(...) or ...`. -/
def truthyNat : Option ℕ → Bool
  | some v => v ≠ 0
  | none => false

/-- First successful attempt of the create-retry loop
(`for _ in range(3)` with `break` on a server in the response); each list
entry is one attempt's outcome, `none` for an exception or an empty reply. -/
def firstCreateSuccess : List (Option NewSrv) → Option NewSrv
  | [] => none
  | some s :: _ => some s
  | none :: rest => firstCreateSuccess rest

/-- Resolution of the target image inside `HetznerClient.rebuild_server`
(`src/main.py`): the per-server override from
`config["rebuild"]["snapshot_id_map"]`, looked up by server id and then by
the old server's name (Python `or`, so falsy entries fall through), else the
newest provider snapshot; `none` when neither exists. -/
def resolveImage (old : SrvInfo) (sidStr : String)
    (snapshotIdMap : List (String × ℕ)) (rawSnapshots : List SnapImage) : Option ℕ :=
  let m1 := alookup sidStr snapshotIdMap
  let m2 := alookup old.name snapshotIdMap
  let mapped : Option ℕ := if truthyNat m1 then m1 else if truthyNat m2 then m2 else none
  match mapped with
  | some i => some i
  | none =>
    match getSnapshots rawSnapshots with
    | [] => none
    | s :: _ => some s.id

/-- `HetznerClient.rebuild_server` from `src/main.py`.  Oracles:
`oldServer` for `get_server(server_id)`, `snapshotIdMap` for
`config["rebuild"]["snapshot_id_map"]`, `rawSnapshots` for the images API,
`deleteOk` for `delete_server`, and `createTries` for the three create
attempts.  The image is resolved by `resolveImage`; with no override and no
snapshot the rebuild is cancelled before anything is deleted. -/
def rebuildServer (oldServer : Option SrvInfo) (sidStr : String)
    (snapshotIdMap : List (String × ℕ)) (rawSnapshots : List SnapImage)
    (deleteOk : Bool) (createTries : List (Option NewSrv)) : RebuildCall :=
  match oldServer with
  | none => ⟨false, some "服务器不存在", none, none, none, none, false⟩
  | some old =>
    match resolveImage old sidStr snapshotIdMap rawSnapshots with
    | none => ⟨false, some "没有可用快照，已取消重建", none, none, none, none, false⟩
    | some image =>
      if deleteOk then
        match firstCreateSuccess (createTries.take 3) with
        | none => ⟨false, some "创建服务器失败", none, none, none, some image, true⟩
        | some ns => ⟨true, none, some ns.id, some ns.ip, some image, some image, true⟩
      else ⟨false, some "删除服务器失败", none, none, none, some image, true⟩

/-- The instrumented `imageResolved` field records exactly the image
resolution. -/
theorem rebuildServer_imageResolved (old : SrvInfo) (sidStr : String)
    (snapshotIdMap : List (String × ℕ)) (rawSnapshots : List SnapImage)
    (deleteOk : Bool) (createTries : List (Option NewSrv)) :
    (rebuildServer (some old) sidStr snapshotIdMap rawSnapshots deleteOk
        createTries).imageResolved
      = resolveImage old sidStr snapshotIdMap rawSnapshots := by
  simp only [rebuildServer]
  rcases resolveImage old sidStr snapshotIdMap rawSnapshots with _ | image
  · rfl
  · by_cases hd : deleteOk
    · simp only [hd, if_true]
      rcases firstCreateSuccess (createTries.take 3) with _ | ns <;> rfl
    · simp only [hd, Bool.false_eq_true, if_false]

/-- The Cloudflare DNS update result `{success, error?}`. -/
structure DnsRes where
  success : Bool
  error : Option String
  deriving DecidableEq, Repr

/-- The external outcomes consumed by one `_perform_rebuild` call:
the `rebuild_server` result, whether a Cloudflare record mapping resolved
for this server, and the DNS update outcome if attempted. -/
structure RebuildEnv where
  rebuildResult : RebuildCall
  resolvedRecord : Bool
  dnsSuccess : Bool
  dnsError : Option String
  deriving DecidableEq, Repr

/-- The result of `_perform_rebuild`, instrumented with the lock state after
the call returns and with whether `client.rebuild_server` was invoked at
all. -/
structure PerformOutcome where
  success : Bool
  error : Option String
  dns : Option DnsRes
  lockHeldAfter : Bool
  serverTouched : Bool
  deriving DecidableEq, Repr

/-- `_perform_rebuild` from `src/main.py`.  `lockHeld` is whether the
per-server-id lock is already held by a concurrent caller when
`lock.acquire(blocking=False)` runs.  If it is, the call fails immediately
with the "rebuild in progress" error and never calls the provider; the lock
stays with its holder.  Otherwise the body runs inside `try`/`finally`, so
the lock is released on the early failure return as well as on success.
Telegram notifications are best-effort and carry no state, so they do not
appear in the result. -/
def performRebuild (lockHeld : Bool) (env : RebuildEnv) : PerformOutcome :=
  if lockHeld then
    ⟨false, some "重建正在进行中", none, lockHeld, false⟩
  else if env.rebuildResult.success then
    let dns := if env.resolvedRecord then some ⟨env.dnsSuccess, env.dnsError⟩ else none
    ⟨true, none, dns, false, true⟩
  else
    ⟨false, env.rebuildResult.error, none, false, true⟩

/-- C5: a remediation call that finds the per-server lock already held
returns the "remediation in progress" failure at once, without invoking the
provider and without disturbing the lock; a call that does acquire the lock
leaves it released on every exit path, early failure returns included. -/
theorem perform_rebuild_lock_discipline (env : RebuildEnv) :
    (performRebuild true env
        = ⟨false, some "重建正在进行中", none, true, false⟩)
    ∧ ((performRebuild false env).lockHeldAfter = false) := by
  refine ⟨rfl, ?_⟩
  by_cases h : env.rebuildResult.success <;> simp [performRebuild, h]

/-- C6: whenever the destroy-and-recreate succeeds, the overall remediation
result reports success, whatever the DNS outcome; the DNS result (possibly a
failure, possibly absent) is carried in the returned record but never turns
the remediation into a failure. -/
theorem rebuild_success_despite_dns (env : RebuildEnv)
    (h : env.rebuildResult.success = true) :
    (performRebuild false env).success = true
    ∧ (performRebuild false env).dns
        = (if env.resolvedRecord then some ⟨env.dnsSuccess, env.dnsError⟩ else none) := by
  constructor <;> simp [performRebuild, h]

/-- Witness for `rebuild_success_despite_dns`: a failed DNS update does not
make a successful rebuild fail. -/
theorem rebuild_success_despite_dns_witness :
    (⟨⟨true, none, some 2, some "1.2.3.4", some 9, some 9, true⟩, true, false,
        some "timeout"⟩ : RebuildEnv).rebuildResult.success = true
    ∧ (performRebuild false
        ⟨⟨true, none, some 2, some "1.2.3.4", some 9, some 9, true⟩, true, false,
          some "timeout"⟩).success = true :=
  ⟨rfl,
    (rebuild_success_despite_dns
      ⟨⟨true, none, some 2, some "1.2.3.4", some 9, some 9, true⟩, true, false,
        some "timeout"⟩ rfl).1⟩

/-- The head of the sorted snapshot list is a most recently created element
of the provider's raw list. -/
theorem getSnapshots_head_newest (raw : List SnapImage) (s : SnapImage)
    (rest : List SnapImage) (h : getSnapshots raw = s :: rest) :
    s ∈ raw ∧ ∀ t ∈ raw, t.created ≤ s.created := by
  haveI : IsTotal SnapImage (fun a b => b.created ≤ a.created) :=
    ⟨fun a b => le_total b.created a.created⟩
  haveI : IsTrans SnapImage (fun a b => b.created ≤ a.created) :=
    ⟨fun _ _ _ hab hbc => le_trans hbc hab⟩
  have hperm := List.perm_insertionSort (fun a b : SnapImage => b.created ≤ a.created) raw
  have hsorted := List.sorted_insertionSort (fun a b : SnapImage => b.created ≤ a.created) raw
  rw [getSnapshots] at h
  rw [h] at hperm hsorted
  constructor
  · exact hperm.mem_iff.mp (List.mem_cons_self s rest)
  · intro t ht
    rcases List.mem_cons.mp (hperm.mem_iff.mpr ht) with he | hm
    · exact le_of_eq (congrArg SnapImage.created he)
    · exact List.rel_of_sorted_cons hsorted t hm

/-- C7: for a rebuild of an existing server, the target image is resolved
before anything is destroyed: a truthy per-server override looked up by id
(then by name) takes priority; otherwise the most recently created provider
snapshot is used; and with no override and no snapshot the call fails with
the "no snapshot available" error with the delete never attempted.
Whenever the delete is attempted, an image had been resolved. -/
theorem rebuild_image_resolution (old : SrvInfo) (sidStr : String)
    (snapshotIdMap : List (String × ℕ)) (rawSnapshots : List SnapImage)
    (deleteOk : Bool) (createTries : List (Option NewSrv)) (call : RebuildCall)
    (hc : call = rebuildServer (some old) sidStr snapshotIdMap rawSnapshots
        deleteOk createTries) :
    (truthyNat (alookup sidStr snapshotIdMap) = true →
        call.imageResolved = alookup sidStr snapshotIdMap)
    ∧ (truthyNat (alookup sidStr snapshotIdMap) = false →
        truthyNat (alookup old.name snapshotIdMap) = true →
        call.imageResolved = alookup old.name snapshotIdMap)
    ∧ (truthyNat (alookup sidStr snapshotIdMap) = false →
        truthyNat (alookup old.name snapshotIdMap) = false →
        rawSnapshots ≠ [] →
        ∃ s ∈ rawSnapshots, call.imageResolved = some s.id
          ∧ ∀ t ∈ rawSnapshots, t.created ≤ s.created)
    ∧ (truthyNat (alookup sidStr snapshotIdMap) = false →
        truthyNat (alookup old.name snapshotIdMap) = false →
        rawSnapshots = [] →
        call = ⟨false, some "没有可用快照，已取消重建", none, none, none, none, false⟩)
    ∧ (call.deleteAttempted = true → call.imageResolved.isSome) := by
  subst hc
  rw [rebuildServer_imageResolved]
  have hid : ∀ m1 : Option ℕ, truthyNat m1 = true → ∃ v, m1 = some v := by
    intro m1 h1
    cases m1 with
    | none => simp [truthyNat] at h1
    | some v => exact ⟨v, rfl⟩
  refine ⟨?_, ?_, ?_, ?_, ?_⟩
  · intro h1
    rcases hid _ h1 with ⟨v, hv⟩
    rw [hv] at h1 ⊢
    simp only [resolveImage, h1, if_true, hv]
  · intro h1 h2
    rcases hid _ h2 with ⟨v, hv⟩
    rw [hv] at h2 ⊢
    simp only [resolveImage, h1, h2, if_true, Bool.false_eq_true, if_false, hv]
  · intro h1 h2 hne
    have hlen : getSnapshots rawSnapshots ≠ [] := by
      intro h0
      have := (List.perm_insertionSort
        (fun a b : SnapImage => b.created ≤ a.created) rawSnapshots).length_eq
      rw [getSnapshots] at h0
      rw [h0] at this
      exact hne (List.length_eq_zero.mp this.symm)
    rcases hs : getSnapshots rawSnapshots with _ | ⟨s, rest⟩
    · exact absurd hs hlen
    · rcases getSnapshots_head_newest rawSnapshots s rest hs with ⟨hmem, hmax⟩
      refine ⟨s, hmem, ?_, hmax⟩
      simp only [resolveImage, h1, h2, Bool.false_eq_true, if_false, hs]
  · intro h1 h2 h0
    subst h0
    simp [rebuildServer, resolveImage, h1, h2, getSnapshots]
  · intro _
    rcases hr : resolveImage old sidStr snapshotIdMap rawSnapshots with _ | image
    · have : (rebuildServer (some old) sidStr snapshotIdMap rawSnapshots deleteOk
          createTries).deleteAttempted = false := by
        simp [rebuildServer, hr]
      simp_all
    · rfl

/-- Witness for `rebuild_image_resolution`: no override and no snapshot, so
the rebuild is cancelled with nothing destroyed. -/
theorem rebuild_image_resolution_witness :
    rebuildServer (some ⟨"web", "cx11", "fsn1"⟩) "42" [] [] true []
      = ⟨false, some "没有可用快照，已取消重建", none, none, none, none, false⟩ :=
  (rebuild_image_resolution ⟨"web", "cx11", "fsn1"⟩ "42" [] [] true []
      _ rfl).2.2.2.1 rfl rfl rfl

/-! ## The per-server alert state machine (`_monitor_traffic_loop`) -/

/-- `ALERT_STATE[sid]` from `src/main.py`:
`{"last_level": ..., "last_outgoing": ..., "auto_rebuild": ...}`, created as
`{0, None, False}`. -/
structure AlertState where
  last_level : ℤ
  last_outgoing : Option ℚ
  auto_rebuild : Bool
  deriving DecidableEq, Repr

/-- `_parse_alert_levels` from `src/main.py`: keep the positive configured
levels, deduplicated and sorted ascending; fall back to `[80, 90, 95, 100]`
when the config is absent or yields nothing.  (`none` stands for a config
value that is not a list of integers.) -/
def parseAlertLevels (raw : Option (List ℤ)) : List ℤ :=
  match raw with
  | some items =>
    let levels := items.filter (fun l => 0 < l)
    if levels.isEmpty then [80, 90, 95, 100]
    else levels.dedup.insertionSort (· ≤ ·)
  | none => [80, 90, 95, 100]

/-- Python's `max` on a list (`None` on an empty list, where Python would
raise). -/
def pyMax : List ℤ → Option ℤ
  | [] => none
  | x :: xs => some (xs.foldl max x)

/-- `reached = [level for level in levels if percent >= level]` with
`percent = outgoing / limit_bytes * 100`. -/
def reachedLevels (levels : List ℤ) (limitBytes outgoing : ℚ) : List ℤ :=
  levels.filter (fun l => (l : ℚ) ≤ outgoing / limitBytes * 100)

/-- `max(reached)` guarded by `if not reached`. -/
def maxReached (levels : List ℤ) (limitBytes outgoing : ℚ) : Option ℤ :=
  pyMax (reachedLevels levels limitBytes outgoing)

/-- Steps 1–2 of the per-poll body: reset `last_level` and `auto_rebuild`
when the counter rolled back below the remembered reading, then remember the
current reading. -/
def rolloverUpdate (st : AlertState) (outgoing : ℚ) : AlertState :=
  let st1 :=
    match st.last_outgoing with
    | some lo =>
      if outgoing < lo then { st with last_level := 0, auto_rebuild := false } else st
    | none => st
  { st1 with last_outgoing := some outgoing }

/-- The observable outcome of one poll of one server: the new alert state,
the threshold level for which a notification message was sent (if any), and
whether `_perform_rebuild` was invoked. -/
structure StepResult where
  state : AlertState
  notified : Option ℤ
  rebuildInvoked : Bool
  deriving DecidableEq, Repr

/-- The per-server body of one iteration of `_monitor_traffic_loop` from
`src/main.py`, for a server whose `outgoing_traffic` read succeeded.
`notifyEnabled` is `enabled and bot_token and chat_id`; `sendOk` is the
oracle for `_send_telegram_message` (on success the level is remembered);
`policyRebuild` is `exceed_action == "rebuild"`; `rebuildOk` is the oracle
for `_perform_rebuild(...)["success"]`.  Note that when `reached` is empty
or its maximum does not exceed `last_level` the loop `continue`s, skipping
the rebuild check as well. -/
def monitorStep (levels : List ℤ) (limitBytes : ℚ)
    (policyRebuild notifyEnabled sendOk rebuildOk : Bool)
    (st : AlertState) (outgoing : ℚ) : StepResult :=
  let stB := rolloverUpdate st outgoing
  match maxReached levels limitBytes outgoing with
  | none => ⟨stB, none, false⟩
  | some newLevel =>
    if newLevel ≤ stB.last_level then ⟨stB, none, false⟩
    else
      let notified := if notifyEnabled then some newLevel else none
      let stC := if notifyEnabled && sendOk then { stB with last_level := newLevel } else stB
      if policyRebuild = true ∧ limitBytes ≤ outgoing then
        if stC.auto_rebuild then ⟨stC, notified, false⟩
        else if rebuildOk then ⟨{ stC with auto_rebuild := true }, notified, true⟩
        else ⟨stC, notified, true⟩
      else ⟨stC, notified, false⟩

/-- Successive polls of one server: fold `monitorStep` over the successive
counter readings, collecting the levels for which notifications were sent. -/
def monitorRun (levels : List ℤ) (limitBytes : ℚ)
    (policyRebuild notifyEnabled sendOk rebuildOk : Bool) :
    AlertState → List ℚ → AlertState × List ℤ
  | st, [] => (st, [])
  | st, out :: rest =>
    let r := monitorStep levels limitBytes policyRebuild notifyEnabled sendOk rebuildOk st out
    let rec' := monitorRun levels limitBytes policyRebuild notifyEnabled sendOk rebuildOk
      r.state rest
    (rec'.1, r.notified.toList ++ rec'.2)

theorem foldl_max_ge_init (xs : List ℤ) : ∀ x : ℤ, x ≤ xs.foldl max x := by
  induction xs with
  | nil => intro x; simp
  | cons y ys ih =>
    intro x
    calc x ≤ max x y := le_max_left x y
    _ ≤ ys.foldl max (max x y) := ih (max x y)

theorem foldl_max_ge_mem (xs : List ℤ) : ∀ (x y : ℤ), y ∈ xs → y ≤ xs.foldl max x := by
  induction xs with
  | nil => intro x y hy; simp at hy
  | cons z zs ih =>
    intro x y hy
    simp only [List.foldl_cons]
    rcases List.mem_cons.mp hy with he | hm
    · subst he
      exact le_trans (le_max_right x y) (foldl_max_ge_init zs (max x y))
    · exact ih (max x z) y hm

theorem foldl_max_mem (xs : List ℤ) : ∀ x : ℤ, xs.foldl max x = x ∨ xs.foldl max x ∈ xs := by
  induction xs with
  | nil => intro x; simp
  | cons z zs ih =>
    intro x
    simp only [List.foldl_cons]
    rcases ih (max x z) with he | hm
    · rw [he]
      rcases max_choice x z with h1 | h1 <;> rw [h1]
      · exact Or.inl rfl
      · exact Or.inr (List.mem_cons_self z zs)
    · exact Or.inr (List.mem_cons_of_mem z hm)

theorem pyMax_mem {l : List ℤ} {m : ℤ} (h : pyMax l = some m) : m ∈ l := by
  cases l with
  | nil => simp [pyMax] at h
  | cons x xs =>
    simp only [pyMax, Option.some.injEq] at h
    rw [← h]
    rcases foldl_max_mem xs x with he | hm
    · rw [he]; exact List.mem_cons_self x xs
    · exact List.mem_cons_of_mem x hm

theorem pyMax_ub {l : List ℤ} {m : ℤ} (h : pyMax l = some m) : ∀ x ∈ l, x ≤ m := by
  cases l with
  | nil => simp [pyMax] at h
  | cons x xs =>
    simp only [pyMax, Option.some.injEq] at h
    rw [← h]
    intro y hy
    rcases List.mem_cons.mp hy with he | hm
    · subst he
      exact foldl_max_ge_init xs y
    · exact foldl_max_ge_mem xs x y hm

theorem pyMax_isSome {l : List ℤ} (h : l ≠ []) : (pyMax l).isSome := by
  cases l with
  | nil => exact absurd rfl h
  | cons x xs => rfl

/-- With a positive limit, the per-poll maximum reached level is monotone in
the reading. -/
theorem maxReached_mono {levels : List ℤ} {lim o1 o2 : ℚ} {m1 m2 : ℤ}
    (hlim : 0 < lim) (ho : o1 ≤ o2)
    (h1 : maxReached levels lim o1 = some m1)
    (h2 : maxReached levels lim o2 = some m2) : m1 ≤ m2 := by
  have hp : o1 / lim * 100 ≤ o2 / lim * 100 := by gcongr
  have hm1 : m1 ∈ reachedLevels levels lim o1 := pyMax_mem h1
  rcases List.mem_filter.mp hm1 with ⟨hml, hcond⟩
  have hcond' : ((m1 : ℚ) ≤ o1 / lim * 100) := by simpa using hcond
  have : m1 ∈ reachedLevels levels lim o2 :=
    List.mem_filter.mpr ⟨hml, by simp only [decide_eq_true_eq]; linarith⟩
  exact pyMax_ub h2 _ this

/-- One poll with notifications enabled and the send succeeding, when the
reading has not rolled back: the reading is remembered, and the
notification fires exactly when the per-poll maximum exceeds the remembered
level, which it then becomes. -/
theorem monitorStep_no_rollover (levels : List ℤ) (lim : ℚ) (pol rok : Bool)
    (st : AlertState) (out : ℚ)
    (hnr : ∀ lo, st.last_outgoing = some lo → lo ≤ out) :
    (monitorStep levels lim pol true true rok st out).state.last_outgoing = some out
    ∧ (monitorStep levels lim pol true true rok st out).state.last_level
        = (match maxReached levels lim out with
           | none => st.last_level
           | some m => if st.last_level < m then m else st.last_level)
    ∧ (monitorStep levels lim pol true true rok st out).notified
        = (match maxReached levels lim out with
           | none => none
           | some m => if st.last_level < m then some m else none) := by
  have hB : rolloverUpdate st out = { st with last_outgoing := some out } := by
    unfold rolloverUpdate
    cases hlo : st.last_outgoing with
    | none => rfl
    | some lo =>
      have hle := hnr lo hlo
      simp [not_lt.mpr hle]
  rcases hM : maxReached levels lim out with _ | m
  · simp [monitorStep, hB, hM]
  · by_cases hcmp : m ≤ st.last_level
    · have : ¬st.last_level < m := not_lt.mpr hcmp
      simp [monitorStep, hB, hM, hcmp, this]
    · have hlt : st.last_level < m := lt_of_not_le hcmp
      simp only [monitorStep, hB, hM, hlt, if_true]
      have : ¬m ≤ ({ st with last_outgoing := some out } : AlertState).last_level := hcmp
      simp only [this, if_false, Bool.and_self, if_true]
      split
      · split
        · simp
        · split <;> simp
      · simp

/-- Core invariant of successive polls with strictly increasing readings,
notifications enabled and every send succeeding: the notified levels
strictly increase from the remembered level, each notified level is a
per-poll maximum, and every per-poll maximum is either notified or already
at most the starting level. -/
theorem monitorRun_spec (levels : List ℤ) (lim : ℚ) (pol rok : Bool) (hlim : 0 < lim) :
    ∀ (outs : List ℚ) (st : AlertState),
      outs.Pairwise (· < ·) →
      (∀ lo, st.last_outgoing = some lo → ∀ o ∈ outs, lo ≤ o) →
      List.Chain' (· < ·)
          (st.last_level :: (monitorRun levels lim pol true true rok st outs).2)
      ∧ (∀ f ∈ (monitorRun levels lim pol true true rok st outs).2,
          ∃ o ∈ outs, maxReached levels lim o = some f)
      ∧ (∀ o ∈ outs, ∀ m, maxReached levels lim o = some m →
          m ∈ (monitorRun levels lim pol true true rok st outs).2
            ∨ m ≤ st.last_level) := by
  intro outs
  induction outs with
  | nil =>
    intro st _ _
    refine ⟨by simp [monitorRun], by simp [monitorRun], by simp⟩
  | cons out rest ih =>
    intro st hpw hlo
    rcases List.pairwise_cons.mp hpw with ⟨hhead, hrest⟩
    rcases monitorStep_no_rollover levels lim pol rok st out
        (fun lo h => hlo lo h out (List.mem_cons_self out rest)) with ⟨hO, hL, hN⟩
    have hlo' : ∀ lo, (monitorStep levels lim pol true true rok st out).state.last_outgoing
        = some lo → ∀ o ∈ rest, lo ≤ o := by
      intro lo h o ho
      rw [hO] at h
      cases h
      exact le_of_lt (hhead o ho)
    rcases ih (monitorStep levels lim pol true true rok st out).state hrest hlo'
      with ⟨ihChain, ihEx, ihAll⟩
    have hrun : monitorRun levels lim pol true true rok st (out :: rest)
        = ((monitorRun levels lim pol true true rok
              (monitorStep levels lim pol true true rok st out).state rest).1,
           (monitorStep levels lim pol true true rok st out).notified.toList
             ++ (monitorRun levels lim pol true true rok
                  (monitorStep levels lim pol true true rok st out).state rest).2) := by
      rfl
    rcases hM : maxReached levels lim out with _ | m0
    · rw [hM] at hL hN
      simp only at hL hN
      rw [hrun]
      simp only [hN, Option.toList_none, List.nil_append]
      rw [hL] at ihChain ihAll
      refine ⟨ihChain, ?_, ?_⟩
      · intro f hf
        rcases ihEx f hf with ⟨o, ho, hmo⟩
        exact ⟨o, List.mem_cons_of_mem out ho, hmo⟩
      · intro o ho m hmo
        rcases List.mem_cons.mp ho with he | hm
        · subst he
          rw [hM] at hmo
          cases hmo
        · exact ihAll o hm m hmo
    · rw [hM] at hL hN
      simp only at hL hN
      by_cases hcmp : st.last_level < m0
      · rw [if_pos hcmp] at hL hN
        rw [hrun]
        simp only [hN, Option.toList_some, List.cons_append, List.nil_append]
        rw [hL] at ihChain ihAll
        refine ⟨?_, ?_, ?_⟩
        · exact List.chain'_cons.mpr ⟨hcmp, ihChain⟩
        · intro f hf
          rcases List.mem_cons.mp hf with he | hm
          · subst he
            exact ⟨out, List.mem_cons_self out rest, hM⟩
          · rcases ihEx f hm with ⟨o, ho, hmo⟩
            exact ⟨o, List.mem_cons_of_mem out ho, hmo⟩
        · intro o ho m hmo
          rcases List.mem_cons.mp ho with he | hm
          · subst he
            rw [hM] at hmo
            cases hmo
            exact Or.inl (List.mem_cons_self m0 _)
          · rcases ihAll o hm m hmo with hin | hle
            · exact Or.inl (List.mem_cons_of_mem m0 hin)
            · have hge : m0 ≤ m :=
                maxReached_mono hlim (le_of_lt (hhead o hm)) hM hmo
              have : m = m0 := le_antisymm hle hge
              subst this
              exact Or.inl (List.mem_cons_self m _)
      · rw [if_neg hcmp] at hL hN
        rw [hrun]
        simp only [hN, Option.toList_none, List.nil_append]
        rw [hL] at ihChain ihAll
        refine ⟨ihChain, ?_, ?_⟩
        · intro f hf
          rcases ihEx f hf with ⟨o, ho, hmo⟩
          exact ⟨o, List.mem_cons_of_mem out ho, hmo⟩
        · intro o ho m hmo
          rcases List.mem_cons.mp ho with he | hm
          · subst he
            rw [hM] at hmo
            cases hmo
            exact Or.inr (not_lt.mp hcmp)
          · exact ihAll o hm m hmo

/-- C2: with the default thresholds `[80, 90, 95, 100]`, notifications
enabled and every send succeeding, a strictly increasing poll sequence
notifies levels in strictly increasing order (so no level twice); every
notified level is the highest threshold reached at its poll (so when several
thresholds are crossed between two polls only the highest fires); and every
per-poll highest reached level is notified (so no crossing is skipped). -/
theorem monitor_thresholds_fire_once (outs : List ℚ) (lim : ℚ) (pol rok : Bool)
    (hlim : 0 < lim) (hmono : List.Chain' (· < ·) outs) :
    List.Chain' (· < ·)
        (monitorRun (parseAlertLevels none) lim pol true true rok ⟨0, none, false⟩ outs).2
    ∧ (∀ f ∈ (monitorRun (parseAlertLevels none) lim pol true true rok
          ⟨0, none, false⟩ outs).2,
        ∃ o ∈ outs, maxReached (parseAlertLevels none) lim o = some f)
    ∧ (∀ o ∈ outs, ∀ m, maxReached (parseAlertLevels none) lim o = some m →
        m ∈ (monitorRun (parseAlertLevels none) lim pol true true rok
          ⟨0, none, false⟩ outs).2) := by
  have hpw : outs.Pairwise (· < ·) := List.chain'_iff_pairwise.mp hmono
  rcases monitorRun_spec (parseAlertLevels none) lim pol rok hlim outs ⟨0, none, false⟩
      hpw (fun lo h => Option.noConfusion h) with ⟨hChain, hEx, hAll⟩
  refine ⟨hChain.tail, hEx, ?_⟩
  intro o ho m hmo
  rcases hAll o ho m hmo with hin | hle
  · exact hin
  · exfalso
    have hm' : m ∈ parseAlertLevels none := (List.mem_filter.mp (pyMax_mem hmo)).1
    have hcases : m = 80 ∨ m = 90 ∨ m = 95 ∨ m = 100 := by
      simpa [parseAlertLevels] using hm'
    have hle' : m ≤ 0 := hle
    omega

/-- Witness for `monitor_thresholds_fire_once`: a jump from 75% to 96%
fires level 95 once, not 80 then 95. -/
theorem monitor_thresholds_fire_once_witness :
    (0:ℚ) < 100
    ∧ List.Chain' (· < ·) [(75:ℚ), 96]
    ∧ List.Chain' (· < ·)
        (monitorRun (parseAlertLevels none) 100 false true true false
          ⟨0, none, false⟩ [75, 96]).2
    ∧ (monitorRun (parseAlertLevels none) 100 false true true false
          ⟨0, none, false⟩ [75, 96]).2 = [95] := by
  have hchain : List.Chain' (· < ·) [(75:ℚ), 96] := by
    refine List.chain'_cons.mpr ⟨by norm_num, ?_⟩
    exact List.chain'_singleton 96
  refine ⟨by norm_num, hchain,
    (monitor_thresholds_fire_once [75, 96] 100 false false (by norm_num) hchain).1, ?_⟩
  norm_num [monitorRun, monitorStep, rolloverUpdate, maxReached, reachedLevels,
    parseAlertLevels, pyMax, List.filter]

/-- C3: when a poll observes a reading strictly below the remembered
`last_outgoing`, the state is reset to
`{last_level = 0, last_outgoing = current reading, auto_rebuild = false}`;
without a rollback `last_level` never decreases across a poll; and after a
reset below every threshold, a later reading that reaches a threshold
notifies again. -/
theorem alert_rollover_reset (levels : List ℤ) (lim : ℚ) (pol rok : Bool)
    (hpos : ∀ l ∈ levels, 0 < l) :
    (∀ (st : AlertState) (out lo : ℚ), st.last_outgoing = some lo → out < lo →
        rolloverUpdate st out = ⟨0, some out, false⟩)
    ∧ (∀ (st : AlertState) (out : ℚ),
        (∀ lo, st.last_outgoing = some lo → lo ≤ out) →
        st.last_level ≤ (monitorStep levels lim pol true true rok st out).state.last_level)
    ∧ (∀ (st : AlertState) (lo out out' : ℚ) (m : ℤ),
        st.last_outgoing = some lo → out < lo →
        maxReached levels lim out = none → out ≤ out' →
        maxReached levels lim out' = some m →
        (monitorStep levels lim pol true true rok
            (monitorStep levels lim pol true true rok st out).state out').notified
          = some m) := by
  have hreset : ∀ (st : AlertState) (out lo : ℚ), st.last_outgoing = some lo → out < lo →
      rolloverUpdate st out = ⟨0, some out, false⟩ := by
    intro st out lo hlo hdrop
    simp [rolloverUpdate, hlo, hdrop]
  refine ⟨hreset, ?_, ?_⟩
  · intro st out hnr
    rcases monitorStep_no_rollover levels lim pol rok st out hnr with ⟨_, hL, _⟩
    rw [hL]
    rcases maxReached levels lim out with _ | m
    · exact le_refl _
    · by_cases hlt : st.last_level < m
      · simp only [hlt, if_true]
        exact le_of_lt hlt
      · simp only [hlt, if_false]
        exact le_refl _
  · intro st lo out out' m hlo hdrop hnone hle hsome
    have hstep1 : (monitorStep levels lim pol true true rok st out).state
        = ⟨0, some out, false⟩ := by
      simp [monitorStep, hreset st out lo hlo hdrop, maxReached] at hnone ⊢
      simp [hnone]
    rcases monitorStep_no_rollover levels lim pol rok
        (monitorStep levels lim pol true true rok st out).state out'
        (by intro p hp; rw [hstep1] at hp; cases hp; exact hle) with ⟨_, _, hN⟩
    rw [hN, hsome, hstep1]
    have hmpos : 0 < m := hpos m (List.mem_filter.mp (pyMax_mem hsome)).1
    simp [hmpos]

/-- Witness for `alert_rollover_reset`, mirroring the spec scenario: after
firing level 90 the counter drops (rollover, reading below every
threshold), and a later reading at 81% notifies level 80 again. -/
theorem alert_rollover_reset_witness :
    (∀ l ∈ ([80, 90, 95, 100] : List ℤ), 0 < l)
    ∧ ((⟨90, some 900, false⟩ : AlertState).last_outgoing = some 900)
    ∧ ((500:ℚ) < 900)
    ∧ maxReached [80, 90, 95, 100] 1000 500 = none
    ∧ ((500:ℚ) ≤ 810)
    ∧ maxReached [80, 90, 95, 100] 1000 810 = some 80
    ∧ (monitorStep [80, 90, 95, 100] 1000 false true true false
        (monitorStep [80, 90, 95, 100] 1000 false true true false
          ⟨90, some 900, false⟩ 500).state 810).notified = some 80 := by
  have h1 : maxReached [80, 90, 95, 100] 1000 500 = none := by
    norm_num [maxReached, reachedLevels, pyMax, List.filter]
  have h2 : maxReached [80, 90, 95, 100] 1000 810 = some 80 := by
    norm_num [maxReached, reachedLevels, pyMax, List.filter]
  refine ⟨by decide, rfl, by norm_num, h1, by norm_num, h2, ?_⟩
  exact (alert_rollover_reset [80, 90, 95, 100] 1000 false false (by decide)).2.2
    ⟨90, some 900, false⟩ 900 500 810 80 rfl (by norm_num) h1 (by norm_num) h2

/-- C4 as stated is false at this input: overage policy "rebuild", the
reading at the limit, `auto_rebuild_fired` false — yet the monitor does not
invoke the remediation workflow, because the poll's maximum reached level
(100) does not exceed `last_level` (100) and the loop `continue`s before the
rebuild check. -/
theorem rebuild_on_overage_cex :
    ((100:ℚ) ≤ 100)
    ∧ ((⟨100, some 100, false⟩ : AlertState).auto_rebuild = false)
    ∧ ((monitorStep (parseAlertLevels none) 100 true true true true
          ⟨100, some 100, false⟩ 100).rebuildInvoked = false)
    ∧ ((monitorStep (parseAlertLevels none) 100 true true true true
          ⟨100, some 100, false⟩ 100).state.auto_rebuild = false) := by
  refine ⟨le_refl _, rfl, ?_, ?_⟩ <;>
    norm_num [monitorStep, rolloverUpdate, maxReached, reachedLevels,
      parseAlertLevels, pyMax, List.filter]

/-- C4 amended: the rebuild check is reached only on polls that also fire a
new threshold level.  On such a poll — no rollback, the maximum reached
level above `last_level`, policy "rebuild", the reading at or above the
limit, `auto_rebuild_fired` false — the workflow is invoked, and
`auto_rebuild_fired` is set to true exactly when it reports success. -/
theorem rebuild_invocation_amended (levels : List ℤ) (lim : ℚ)
    (enabled sendOk rok : Bool) (st : AlertState) (out : ℚ) (m : ℤ)
    (hnr : ∀ lo, st.last_outgoing = some lo → lo ≤ out)
    (hM : maxReached levels lim out = some m)
    (hnew : st.last_level < m)
    (hlim : lim ≤ out)
    (har : st.auto_rebuild = false) :
    (monitorStep levels lim true enabled sendOk rok st out).rebuildInvoked = true
    ∧ (monitorStep levels lim true enabled sendOk rok st out).state.auto_rebuild
        = rok := by
  have hB : rolloverUpdate st out = { st with last_outgoing := some out } := by
    unfold rolloverUpdate
    cases hlo : st.last_outgoing with
    | none => rfl
    | some lo =>
      have hle := hnr lo hlo
      simp [not_lt.mpr hle]
  have hnle : ¬m ≤ ({ st with last_outgoing := some out } : AlertState).last_level :=
    not_le.mpr hnew
  simp only [monitorStep, hB, hM, hnle, if_false]
  by_cases hes : (enabled && sendOk) = true <;>
    simp only [hes, if_true, Bool.false_eq_true, if_false] <;>
    simp [har, hlim] <;>
    cases rok <;> simp

/-- Witness for `rebuild_invocation_amended`: a first poll straight at the
limit fires level 100 and invokes the rebuild, whose success sets the
flag. -/
theorem rebuild_invocation_amended_witness :
    maxReached (parseAlertLevels none) 100 100 = some 100
    ∧ ((⟨0, none, false⟩ : AlertState).last_level < 100)
    ∧ ((100:ℚ) ≤ 100)
    ∧ (monitorStep (parseAlertLevels none) 100 true true true true
        ⟨0, none, false⟩ 100).rebuildInvoked = true
    ∧ (monitorStep (parseAlertLevels none) 100 true true true true
        ⟨0, none, false⟩ 100).state.auto_rebuild = true := by
  have hM : maxReached (parseAlertLevels none) 100 100 = some 100 := by
    norm_num [maxReached, reachedLevels, parseAlertLevels, pyMax, List.filter]
  rcases rebuild_invocation_amended (parseAlertLevels none) 100 true true true
      ⟨0, none, false⟩ 100 100 (fun lo h => Option.noConfusion h) hM (by decide)
      (le_refl _) rfl with ⟨hi, ha⟩
  exact ⟨hM, by decide, le_refl _, hi, ha⟩

/-! ## The delta/cycle aggregator (`_delta_by_name`, `_compute_cycle_data`) -/

/-- One aggregate entry of `_delta_by_name`:
`{"out": ..., "in": ..., "has_out": ..., "has_in": ...}` (in milli-TB fixed
point). -/
structure DeltaEntry where
  out : ℤ
  inb : ℤ
  has_out : Bool
  has_in : Bool
  deriving DecidableEq, Repr

/-- Python `aggregates.setdefault(name, default)` followed by an in-place
mutation `f` of the entry: update the first entry with this key, or append
`f default` in insertion order. -/
def setUpd (acc : List (String × DeltaEntry)) (name : String)
    (f : DeltaEntry → DeltaEntry) : List (String × DeltaEntry) :=
  match acc with
  | [] => [(name, f ⟨0, 0, false, false⟩)]
  | (k, v) :: rest =>
    if k = name then (k, f v) :: rest else (k, v) :: setUpd rest name f

/-- One direction's delta in `_delta_by_name`: present only when both
endpoint readings are present and the later is at least the earlier. -/
def optDelta (prevV currV : Option ℚ) : Option ℤ :=
  match prevV, currV with
  | some p, some c => if p ≤ c then some (bytesToTb (c - p)) else none
  | _, _ => none

/-- `data.get("name") or prev_data.get("name") or str(sid)` (the empty
string, like an absent value, is falsy in Python). -/
def chooseName (sid : String) (dataName : String) (prevData : Option SrvData) : String :=
  if dataName ≠ "" then dataName
  else
    match prevData with
    | some p => if p.name ≠ "" then p.name else sid
    | none => sid

/-- Add the two optional direction deltas into an aggregate entry, marking
each direction present when its delta is. -/
def applyDelta (e : DeltaEntry) (outD inD : Option ℤ) : DeltaEntry :=
  let e1 :=
    match outD with
    | some d => { e with out := e.out + d, has_out := true }
    | none => e
  match inD with
  | some d => { e1 with inb := e1.inb + d, has_in := true }
  | none => e1

/-- `_delta_by_name` from `src/main.py`: walk the entries of the later
snapshot in order, look the same snapshot key up in the earlier snapshot,
and accumulate each direction's delta into the aggregate keyed by the
chosen display name. -/
def deltaByName (prev curr : Snapshot) : List (String × DeltaEntry) :=
  curr.foldl
    (fun acc entry =>
      let prevData := alookup entry.1 prev
      let name := chooseName entry.1 entry.2.name prevData
      let outD := optDelta (prevData.bind SrvData.outbound) entry.2.outbound
      let inD := optDelta (prevData.bind SrvData.inbound) entry.2.inbound
      setUpd acc name (fun e => applyDelta e outD inD))
    []

/-- One point of the cycle series (`hour_of_day`, display metadata parsed
from the timestamp, is omitted). -/
structure CyclePoint where
  time : String
  out_tb_h : ℤ
  cycle_out_cum_tb : ℤ
  cycle_age_h : ℕ
  deriving DecidableEq, Repr

/-- Per-server output of `_compute_cycle_data`. -/
structure CycleInfo where
  name : String
  points : List CyclePoint
  rebuilds : List String
  deriving DecidableEq, Repr

/-- The running state of `_compute_cycle_data`'s inner loop for one server
id. -/
structure CycleAcc where
  cycle_out : ℤ
  cycle_age : ℕ
  points : List CyclePoint
  rebuilds : List String
  name : Option String
  deriving DecidableEq, Repr

/-- One iteration of `_compute_cycle_data`'s inner loop: given the
consecutive hour-key pair, detect a rebuild for this server id (both
readings present for the same id and the later strictly smaller), reset the
running cycle on it, then add the id's entry of the name-keyed deltas
(looked up by the id itself, the snapshot key). -/
def cycleStep (hourly : HourlySeries) (sid : String) (acc : CycleAcc)
    (pair : String × String) : CycleAcc :=
  let prev := (alookup pair.1 hourly).getD []
  let curr := (alookup pair.2 hourly).getD []
  let prevData := alookup sid prev
  let currData := alookup sid curr
  let name :=
    match acc.name with
    | some n => some n
    | none =>
      match currData with
      | some d => some (if d.name ≠ "" then d.name else sid)
      | none => none
  let rebuild :=
    match prevData, currData with
    | some p, some c =>
      match p.outbound, c.outbound with
      | some po, some co => decide (co < po)
      | _, _ => false
    | _, _ => false
  let cycleOut0 := if rebuild then 0 else acc.cycle_out
  let cycleAge0 := if rebuild then 0 else acc.cycle_age
  let rebuilds := if rebuild then acc.rebuilds ++ [pair.2] else acc.rebuilds
  let totalOut :=
    match alookup sid (deltaByName prev curr) with
    | some e => if e.has_out then e.out else 0
    | none => 0
  { cycle_out := cycleOut0 + totalOut
    cycle_age := cycleAge0 + 1
    points := acc.points ++ [⟨pair.2, totalOut, cycleOut0 + totalOut, cycleAge0⟩]
    rebuilds := rebuilds
    name := name }

/-- `_compute_cycle_data` from `src/main.py`: for every server id present
anywhere in the stored series (optionally filtered), walk the sorted hour
keys pairwise, maintaining the running cycle state. -/
def computeCycleData (hourly : HourlySeries) (includeIds : Option (List String))
    (nameMap : List (String × String)) : List (String × CycleInfo) :=
  let keys := (hourly.map Prod.fst).insertionSort (· ≤ ·)
  if keys.length < 2 then []
  else
    let allIds := (hourly.map (fun kv => kv.2.map Prod.fst)).flatten.dedup
    let ids :=
      match includeIds with
      | some inc => allIds.filter (fun sid => sid ∈ inc)
      | none => allIds
    ids.map (fun sid =>
      let accF := (keys.zip keys.tail).foldl (cycleStep hourly sid)
        ⟨0, 0, [], [], alookup sid nameMap⟩
      (sid, ⟨accF.name.getD sid, accF.points, accF.rebuilds⟩))

theorem alookup_some_key_mem {β : Type} {k : String} {l : List (String × β)} {v : β}
    (h : alookup k l = some v) : ∃ p ∈ l, p.1 = k := by
  induction l with
  | nil => simp [alookup] at h
  | cons q rest ih =>
    obtain ⟨k', v'⟩ := q
    by_cases hq : k' = k
    · exact ⟨(k', v'), List.mem_cons_self _ rest, hq⟩
    · rw [alookup, if_neg hq] at h
      rcases ih h with ⟨p, hp, hpk⟩
      exact ⟨p, List.mem_cons_of_mem _ hp, hpk⟩

/-- When every server id of the later snapshot is absent from the earlier
snapshot (as after an id change), `_delta_by_name` produces only empty
aggregate entries: no direction is marked present and no delta is
contributed. -/
theorem deltaByName_all_new (prev curr : Snapshot)
    (hall : ∀ p ∈ curr, alookup p.1 prev = none) :
    ∀ e ∈ deltaByName prev curr, e.2 = ⟨0, 0, false, false⟩ := by
  have hset : ∀ (acc : List (String × DeltaEntry)) (name : String),
      (∀ e ∈ acc, e.2 = ⟨0, 0, false, false⟩) →
      ∀ e ∈ setUpd acc name (fun e => e), e.2 = ⟨0, 0, false, false⟩ := by
    intro acc
    induction acc with
    | nil =>
      intro name _ e he
      simp only [setUpd, List.mem_singleton] at he
      rw [he]
    | cons q rest ih =>
      intro name hacc e he
      obtain ⟨k, v⟩ := q
      by_cases hk : k = name
      · rw [setUpd, if_pos hk] at he
        rcases List.mem_cons.mp he with he' | he'
        · rw [he']
          exact hacc (k, v) (List.mem_cons_self _ _)
        · exact hacc e (List.mem_cons_of_mem _ he')
      · rw [setUpd, if_neg hk] at he
        rcases List.mem_cons.mp he with he' | he'
        · rw [he']
          exact hacc (k, v) (List.mem_cons_self _ _)
        · exact ih name (fun e' he'' => hacc e' (List.mem_cons_of_mem _ he'')) e he'
  have hfold : ∀ (cs : List (String × SrvData)) (acc : List (String × DeltaEntry)),
      (∀ p ∈ cs, alookup p.1 prev = none) →
      (∀ e ∈ acc, e.2 = ⟨0, 0, false, false⟩) →
      ∀ e ∈ cs.foldl
        (fun acc entry =>
          let prevData := alookup entry.1 prev
          let name := chooseName entry.1 entry.2.name prevData
          let outD := optDelta (prevData.bind SrvData.outbound) entry.2.outbound
          let inD := optDelta (prevData.bind SrvData.inbound) entry.2.inbound
          setUpd acc name (fun e => applyDelta e outD inD)) acc,
        e.2 = ⟨0, 0, false, false⟩ := by
    intro cs
    induction cs with
    | nil => intro acc _ hacc e he; exact hacc e he
    | cons p rest ih =>
      intro acc hcs hacc e he
      rw [List.foldl_cons] at he
      refine ih _ (fun q hq => hcs q (List.mem_cons_of_mem _ hq)) ?_ e he
      have hp : alookup p.1 prev = none := hcs p (List.mem_cons_self _ _)
      simp only [hp, Option.none_bind]
      exact hset acc _ hacc
  exact hfold curr [] hall (by simp)

/-- On a two-hour series in which every server id of the later hour is new,
`_compute_cycle_data` records no rebuild for any server: the rollover
detection compares readings of the same server id only, so an id change
never registers as a rollover. -/
theorem computeCycleData_no_rebuilds_two (prevSnap currSnap : Snapshot)
    (k1 k2 : String) (hk : k1 < k2)
    (hall : ∀ p ∈ currSnap, alookup p.1 prevSnap = none) :
    ∀ s ∈ computeCycleData [(k1, prevSnap), (k2, currSnap)] none [],
      s.2.rebuilds = [] := by
  intro s hs
  have hne : ¬k1 = k2 := ne_of_lt hk
  have hkeys : (([(k1, prevSnap), (k2, currSnap)] : HourlySeries).map
      Prod.fst).insertionSort (· ≤ ·) = [k1, k2] := by
    simp [List.insertionSort, List.orderedInsert, le_of_lt hk]
  rw [computeCycleData] at hs
  simp only [hkeys] at hs
  rw [if_neg (by norm_num)] at hs
  rcases List.mem_map.mp hs with ⟨sid, _, hsid⟩
  rw [← hsid]
  simp only [List.zip, List.zipWith, List.foldl_cons, List.foldl_nil]
  have hprev : (alookup k1 [(k1, prevSnap), (k2, currSnap)]).getD [] = prevSnap := by
    simp [alookup]
  have hcurr : (alookup k2 [(k1, prevSnap), (k2, currSnap)]).getD [] = currSnap := by
    simp [alookup, hne]
  simp only [cycleStep, hprev, hcurr]
  rcases hcd : alookup sid currSnap with _ | c
  · rcases alookup sid prevSnap with _ | p <;> simp
  · have hpd : alookup sid prevSnap = none := by
      rcases alookup_some_key_mem hcd with ⟨p, hp, hpk⟩
      rw [← hpk]
      exact hall p hp
    rw [hpd]
    simp

/-- C1 as stated is false at this input: the server's id changes between the
two hours (1 → 2) while its name "web" stays constant and its outbound
counter drops from 100 to 50, yet `_compute_cycle_data` records no rollover
at the boundary for any server (rollover detection is keyed by id), and the
name-keyed delta aggregate for "web" does not join the two readings into
one continuous subject (both direction flags are false because the lookup
of the previous reading is by snapshot key, i.e. by id). -/
theorem cycle_id_churn_cex :
    ((computeCycleData
        [("2024-01-01 00:00", [("1", ⟨"web", some 100, none⟩)]),
         ("2024-01-01 01:00", [("2", ⟨"web", some 50, none⟩)])] none []).map
        (fun s => s.2.rebuilds) = [[], []])
    ∧ alookup "web"
        (deltaByName [("1", ⟨"web", some 100, none⟩)]
          [("2", ⟨"web", some 50, none⟩)])
        = some ⟨0, 0, false, false⟩ := by
  have hle : ("2024-01-01 00:00" : String) ≤ "2024-01-01 01:00" := by
    rw [String.le_iff_toList_le]
    decide
  have hkeys : (([("2024-01-01 00:00", [("1", ⟨"web", some 100, none⟩)]),
        ("2024-01-01 01:00", [("2", ⟨"web", some 50, none⟩)])] : HourlySeries).map
      Prod.fst).insertionSort (· ≤ ·)
      = ["2024-01-01 00:00", "2024-01-01 01:00"] := by
    simp [List.insertionSort, List.orderedInsert, hle]
  constructor
  · simp only [computeCycleData, hkeys]
    rfl
  · rfl

/-- C1 amended: deltas aggregate their output by name but match the
previous reading by snapshot key (the numeric server id), and the cycle
rollover detection is per server id.  When a server's id changes between
hour N and hour N+1 while its name stays constant, no delta is contributed
for that interval (every aggregate entry stays empty), but the two readings
are not treated as one continuous subject and no rollover is recorded at
the boundary. -/
theorem delta_cycle_keyed_by_id_amended (prev curr : Snapshot) (k1 k2 : String)
    (hk : k1 < k2)
    (hall : ∀ p ∈ curr, alookup p.1 prev = none) :
    (∀ e ∈ deltaByName prev curr, e.2 = ⟨0, 0, false, false⟩)
    ∧ (∀ s ∈ computeCycleData [(k1, prev), (k2, curr)] none [],
        s.2.rebuilds = []) :=
  ⟨deltaByName_all_new prev curr hall,
    computeCycleData_no_rebuilds_two prev curr k1 k2 hk hall⟩

/-- Witness for `delta_cycle_keyed_by_id_amended` on the id-churn series. -/
theorem delta_cycle_keyed_by_id_amended_witness :
    ("2024-01-01 00:00" : String) < "2024-01-01 01:00"
    ∧ (∀ e ∈ deltaByName [("1", ⟨"web", some 100, none⟩)]
          [("2", ⟨"web", some 50, none⟩)],
        e.2 = (⟨0, 0, false, false⟩ : DeltaEntry))
    ∧ (∀ s ∈ computeCycleData
          [("2024-01-01 00:00", [("1", ⟨"web", some 100, none⟩)]),
           ("2024-01-01 01:00", [("2", ⟨"web", some 50, none⟩)])] none [],
        s.2.rebuilds = []) := by
  have hk : ("2024-01-01 00:00" : String) < "2024-01-01 01:00" := by
    rw [String.lt_iff_toList_lt]
    decide
  have hall : ∀ p ∈ ([("2", ⟨"web", some 50, none⟩)] : Snapshot),
      alookup p.1 [("1", (⟨"web", some 100, none⟩ : SrvData))] = none := by
    intro p hp
    rcases List.mem_singleton.mp hp with rfl
    rfl
  rcases delta_cycle_keyed_by_id_amended
      [("1", ⟨"web", some 100, none⟩)] [("2", ⟨"web", some 50, none⟩)]
      "2024-01-01 00:00" "2024-01-01 01:00" hk hall with ⟨h1, h2⟩
  exact ⟨hk, h1, h2⟩

/-! ## The read APIs `api_hourly` and `api_daily` -/

/-- `_date_from_hour_key` from `src/main.py`: the part of the key before
the first space (`key.split(" ", 1)[0]`), `none` when the key contains no
space (the empty key also yields `none`).  Strings are handled through
their character lists so that the model evaluates. -/
def dateFromHourKey (key : String) : Option String :=
  if ' ' ∈ key.data then some (String.mk (key.data.takeWhile (fun c => c ≠ ' ')))
  else none

/-- Python `key.startswith(date)`, on character lists. -/
def strStartsWith (key pre : String) : Bool :=
  pre.data.isPrefixOf key.data

/-- The total outbound contribution of one name-keyed delta aggregate: the
sum of `out` over the entries whose `has_out` flag is set — exactly what
each of the two read APIs adds up per hour pair. -/
def outTotal (l : List (String × DeltaEntry)) : ℤ :=
  (l.map (fun e => if e.2.has_out then e.2.out else 0)).sum

/-- The per-hour outbound value `api_hourly` reports for one name
(`delta_tb`): present iff the name's entry has `has_out` set (a missing
name reads as the empty dict, whose `has_out` is falsy). -/
def hourValue (deltas : List (String × DeltaEntry)) (name : String) : Option ℤ :=
  match alookup name deltas with
  | some e => if e.has_out then some e.out else none
  | none => none

/-- `if name not in rows: rows[name] = {"name": name, "deltas": []}`,
iterated over the delta names in order. -/
def addRowKeys : List (String × List (String × Option ℤ)) → List String →
    List (String × List (String × Option ℤ))
  | rows, [] => rows
  | rows, n :: ns =>
    addRowKeys (if (alookup n rows).isSome then rows else rows ++ [(n, [])]) ns

/-- The name-keyed deltas `api_hourly` computes for one selected hour key:
against the predecessor hour from `prev_map` when there is one, else
against the empty snapshot. -/
def hourDeltas (hourly : HourlySeries) (prevMap : List (String × String))
    (currKey : String) : List (String × DeltaEntry) :=
  let prev :=
    match alookup currKey prevMap with
    | some pk => (alookup pk hourly).getD []
    | none => []
  deltaByName prev ((alookup currKey hourly).getD [])

/-- One selected hour of `api_hourly`'s date branch: create missing rows
for the hour's delta names, then append this hour's value to every row. -/
def hourlyRowsStep (hourly : HourlySeries) (prevMap : List (String × String))
    (rows : List (String × List (String × Option ℤ))) (currKey : String) :
    List (String × List (String × Option ℤ)) :=
  let deltas := hourDeltas hourly prevMap currKey
  let rows1 := addRowKeys rows (deltas.map Prod.fst)
  rows1.map (fun r => (r.1, r.2 ++ [(currKey, hourValue deltas r.1)]))

/-- The rows of the `GET /api/hourly?date=...` handler from `src/main.py`:
per server name, the per-hour outbound deltas over the hours of the
requested date (`prev_map` pairs every sorted key with its predecessor). -/
def apiHourlyRows (hourly : HourlySeries) (date : String) :
    List (String × List (String × Option ℤ)) :=
  let keys := (hourly.map Prod.fst).insertionSort (· ≤ ·)
  let selected := keys.filter (fun k => strStartsWith k date)
  let prevMap := keys.tail.zip keys
  selected.foldl (hourlyRowsStep hourly prevMap) []

/-- The sum of all per-hour outbound deltas reported for a date (absent
values count zero). -/
def rowsOutSum (rows : List (String × List (String × Option ℤ))) : ℤ :=
  (rows.map (fun r => (r.2.map (fun e => e.2.getD 0)).sum)).sum

/-- `daily_totals[date_key] = daily_totals.get(date_key, 0) + delta_tb`:
add into the bucket, creating it at the end on first use. -/
def bump (acc : List (String × ℤ)) (d : String) (v : ℤ) : List (String × ℤ) :=
  match acc with
  | [] => [(d, v)]
  | (d', x) :: rest =>
    if d' = d then (d', x + v) :: rest else (d', x) :: bump rest d v

/-- The name-keyed deltas of one consecutive hour-key pair, straight from
the stored series. -/
def pairDeltas (hourly : HourlySeries) (pair : String × String) :
    List (String × DeltaEntry) :=
  deltaByName ((alookup pair.1 hourly).getD []) ((alookup pair.2 hourly).getD [])

/-- One consecutive-pair iteration of `api_daily`'s accumulation: bucket
every `has_out` entry of the pair's deltas under the date of the later hour
key; pairs whose later key has no date part are skipped. -/
def dailyStep (hourly : HourlySeries) (acc : List (String × ℤ))
    (pair : String × String) : List (String × ℤ) :=
  match dateFromHourKey pair.2 with
  | none => acc
  | some dateKey =>
    (pairDeltas hourly pair).foldl
      (fun a e => if e.2.has_out then bump a dateKey e.2.out else a) acc

/-- The outbound daily-total accumulation of the `GET /api/daily` handler
from `src/main.py`, over all consecutive pairs of sorted hour keys. -/
def apiDailyOutTotals (hourly : HourlySeries) : List (String × ℤ) :=
  let keys := (hourly.map Prod.fst).insertionSort (· ≤ ·)
  (keys.zip keys.tail).foldl (dailyStep hourly) []

/-- The outbound total `api_daily` reports for a date (`_quantize_tb` of an
already 3-place value is the identity; a date with no accumulated bucket
reports zero). -/
def apiDailyOutboundTotal (hourly : HourlySeries) (date : String) : ℤ :=
  (alookup date (apiDailyOutTotals hourly)).getD 0

/-- The pairwise walk `(previous key?, current key)` along a key list. -/
def walkFrom (po : Option String) : List String → List (Option String × String)
  | [] => []
  | k :: rest => (po, k) :: walkFrom (some k) rest

theorem alookup_eq_none_iff {β : Type} (k : String) (l : List (String × β)) :
    alookup k l = none ↔ k ∉ l.map Prod.fst := by
  induction l with
  | nil => simp [alookup]
  | cons q rest ih =>
    obtain ⟨k', v⟩ := q
    by_cases hk : k' = k
    · subst hk
      simp [alookup]
    · rw [alookup, if_neg hk]
      simp [ih, Ne.symm hk]

theorem setUpd_keys (acc : List (String × DeltaEntry)) (name : String)
    (f : DeltaEntry → DeltaEntry) :
    (setUpd acc name f).map Prod.fst
      = if name ∈ acc.map Prod.fst then acc.map Prod.fst
        else acc.map Prod.fst ++ [name] := by
  induction acc with
  | nil => simp [setUpd]
  | cons q rest ih =>
    obtain ⟨k, v⟩ := q
    by_cases hk : k = name
    · subst hk
      rw [setUpd, if_pos rfl]
      simp
    · rw [setUpd, if_neg hk]
      simp only [List.map_cons]
      rw [ih]
      by_cases hm : name ∈ rest.map Prod.fst
      · rw [if_pos hm, if_pos (by simp [hm])]
      · rw [if_neg hm, if_neg (by simp [hm, Ne.symm hk]), List.cons_append]

theorem deltaByName_keys_nodup (prev curr : Snapshot) :
    ((deltaByName prev curr).map Prod.fst).Nodup := by
  have hfold : ∀ (cs : List (String × SrvData)) (acc : List (String × DeltaEntry)),
      (acc.map Prod.fst).Nodup →
      ((cs.foldl
        (fun acc entry =>
          let prevData := alookup entry.1 prev
          let name := chooseName entry.1 entry.2.name prevData
          let outD := optDelta (prevData.bind SrvData.outbound) entry.2.outbound
          let inD := optDelta (prevData.bind SrvData.inbound) entry.2.inbound
          setUpd acc name (fun e => applyDelta e outD inD)) acc).map Prod.fst).Nodup := by
    intro cs
    induction cs with
    | nil => intro acc h; exact h
    | cons p rest ih =>
      intro acc h
      rw [List.foldl_cons]
      apply ih
      rw [setUpd_keys]
      split
      · exact h
      · rename_i hnm
        simp [List.nodup_append, h, hnm]
  exact hfold curr [] (by simp)

theorem outTotal_deltaByName_nil (curr : Snapshot) :
    outTotal (deltaByName [] curr) = 0 := by
  apply List.sum_eq_zero
  intro x hx
  rcases List.mem_map.mp hx with ⟨e, he, hex⟩
  have htriv := deltaByName_all_new [] curr (fun p _ => rfl) e he
  rw [← hex, htriv]
  rfl

theorem sum_map_add {α : Type} (l : List α) (f g : α → ℤ) :
    (l.map (fun x => f x + g x)).sum = (l.map f).sum + (l.map g).sum := by
  induction l with
  | nil => simp
  | cons x xs ih =>
    simp only [List.map_cons, List.sum_cons, ih]
    ring

theorem sum_filter_map (P : String → Bool) (g : String → ℤ) (ks : List String) :
    ((ks.filter P).map g).sum = (ks.map (fun c => if P c then g c else 0)).sum := by
  induction ks with
  | nil => simp
  | cons k rest ih =>
    by_cases hp : P k
    · simp [hp, ih]
    · simp [hp, ih]

/-- Summing the reported per-name values over any duplicate-free list of
names that covers the aggregate's keys gives the aggregate's outbound
total. -/
theorem sum_over_names_eq_outTotal :
    ∀ (l : List (String × DeltaEntry)) (names : List String),
      (l.map Prod.fst).Nodup → names.Nodup →
      (∀ k ∈ l.map Prod.fst, k ∈ names) →
      (names.map (fun n => (hourValue l n).getD 0)).sum = outTotal l := by
  intro l
  induction l with
  | nil =>
    intro names _ _ _
    have : ∀ x ∈ names.map (fun n => (hourValue ([] : List (String × DeltaEntry)) n).getD 0),
        x = 0 := by
      intro x hx
      rcases List.mem_map.mp hx with ⟨n, _, hnx⟩
      rw [← hnx]
      rfl
    rw [List.sum_eq_zero this]
    rfl
  | cons q rest ih =>
    intro names hl hn hsub
    obtain ⟨k, v⟩ := q
    have hkmem : k ∈ names := hsub k (by simp)
    have hknotin : k ∉ rest.map Prod.fst := by
      simp only [List.map_cons] at hl
      exact (List.nodup_cons.mp hl).1
    have hperm := List.perm_cons_erase hkmem
    rw [(hperm.map (fun n => (hourValue ((k, v) :: rest) n).getD 0)).sum_eq]
    simp only [List.map_cons, List.sum_cons]
    have hhead : (hourValue ((k, v) :: rest) k).getD 0
        = if v.has_out then v.out else 0 := by
      have hlk : alookup k ((k, v) :: rest) = some v := by
        rw [alookup, if_pos rfl]
      unfold hourValue
      rw [hlk]
      cases hvo : v.has_out <;> simp [hvo]
    have htail : ∀ n ∈ names.erase k,
        (hourValue ((k, v) :: rest) n).getD 0 = (hourValue rest n).getD 0 := by
      intro n hne
      have hnk : ¬(k = n) := by
        intro h
        subst h
        exact hn.not_mem_erase hne
      unfold hourValue
      have hlk : alookup n ((k, v) :: rest) = alookup n rest := by
        rw [alookup, if_neg hnk]
      rw [hlk]
    rw [List.map_congr_left htail]
    rw [ih (names.erase k) ((List.nodup_cons.mp (by simpa using hl)).2) (hn.erase k) ?_]
    · rw [hhead]
      simp only [outTotal, List.map_cons, List.sum_cons]
    · intro k' hk'
      exact (List.mem_erase_of_ne (by rintro rfl; exact hknotin hk')).mpr
        (hsub k' (by simp [hk']))

theorem addRowKeys_sum : ∀ (names : List String)
    (rows : List (String × List (String × Option ℤ))),
    rowsOutSum (addRowKeys rows names) = rowsOutSum rows := by
  intro names
  induction names with
  | nil => intro rows; rfl
  | cons n ns ih =>
    intro rows
    rw [addRowKeys, ih]
    split
    · rfl
    · simp [rowsOutSum]

theorem addRowKeys_keys_nodup : ∀ (names : List String)
    (rows : List (String × List (String × Option ℤ))),
    (rows.map Prod.fst).Nodup → ((addRowKeys rows names).map Prod.fst).Nodup := by
  intro names
  induction names with
  | nil => intro rows h; exact h
  | cons n ns ih =>
    intro rows h
    rw [addRowKeys]
    split
    · exact ih rows h
    · rename_i hns
      refine ih _ ?_
      have hnm : n ∉ rows.map Prod.fst := by
        rw [← alookup_eq_none_iff]
        exact Option.not_isSome_iff_eq_none.mp hns
      simp [List.nodup_append, h, hnm]

theorem addRowKeys_keys_cover : ∀ (names : List String)
    (rows : List (String × List (String × Option ℤ))) (n : String),
    (n ∈ names ∨ n ∈ rows.map Prod.fst) →
    n ∈ (addRowKeys rows names).map Prod.fst := by
  intro names
  induction names with
  | nil =>
    intro rows n h
    rcases h with h | h
    · cases h
    · exact h
  | cons m ns ih =>
    intro rows n h
    rw [addRowKeys]
    by_cases hm : (alookup m rows).isSome
    · rw [if_pos hm]
      rcases h with h | h
      · rcases List.mem_cons.mp h with he | hns
        · subst he
          refine ih rows n (Or.inr ?_)
          rcases Option.isSome_iff_exists.mp hm with ⟨v, hv⟩
          rcases alookup_some_key_mem hv with ⟨p, hp, hpk⟩
          rw [← hpk]
          exact List.mem_map_of_mem Prod.fst hp
        · exact ih rows n (Or.inl hns)
      · exact ih rows n (Or.inr h)
    · rw [if_neg hm]
      rcases h with h | h
      · rcases List.mem_cons.mp h with he | hns
        · subst he
          exact ih _ n (Or.inr (by simp))
        · exact ih _ n (Or.inl hns)
      · exact ih _ n (Or.inr (by simp [h]))

theorem rowsOutSum_append_col (rows1 : List (String × List (String × Option ℤ)))
    (c : String) (val : String → Option ℤ) :
    rowsOutSum (rows1.map (fun r => (r.1, r.2 ++ [(c, val r.1)])))
      = rowsOutSum rows1 + ((rows1.map Prod.fst).map (fun n => (val n).getD 0)).sum := by
  induction rows1 with
  | nil => simp [rowsOutSum]
  | cons r rs ih =>
    simp only [List.map_cons, rowsOutSum, List.sum_cons] at ih ⊢
    simp only [List.map_append, List.sum_append, List.map_cons, List.sum_cons,
      List.map_nil, List.sum_nil]
    rw [ih]
    ring

theorem hourlyRowsStep_keys (hourly : HourlySeries) (prevMap : List (String × String))
    (rows : List (String × List (String × Option ℤ))) (c : String) :
    (hourlyRowsStep hourly prevMap rows c).map Prod.fst
      = (addRowKeys rows ((hourDeltas hourly prevMap c).map Prod.fst)).map Prod.fst := by
  unfold hourlyRowsStep
  rw [List.map_map]
  rfl

theorem hourlyRowsStep_sum (hourly : HourlySeries) (prevMap : List (String × String))
    (rows : List (String × List (String × Option ℤ))) (c : String)
    (hnd : (rows.map Prod.fst).Nodup) :
    rowsOutSum (hourlyRowsStep hourly prevMap rows c)
      = rowsOutSum rows + outTotal (hourDeltas hourly prevMap c) := by
  have hdnd : ((hourDeltas hourly prevMap c).map Prod.fst).Nodup := by
    unfold hourDeltas
    exact deltaByName_keys_nodup _ _
  unfold hourlyRowsStep
  rw [rowsOutSum_append_col]
  rw [addRowKeys_sum]
  rw [sum_over_names_eq_outTotal (hourDeltas hourly prevMap c)
      ((addRowKeys rows ((hourDeltas hourly prevMap c).map Prod.fst)).map Prod.fst)
      hdnd
      (addRowKeys_keys_nodup _ rows hnd)
      (fun k hk => addRowKeys_keys_cover _ rows k (Or.inl hk))]

theorem hourlyRows_fold_sum (hourly : HourlySeries) (prevMap : List (String × String)) :
    ∀ (sel : List String) (rows : List (String × List (String × Option ℤ))),
      (rows.map Prod.fst).Nodup →
      rowsOutSum (sel.foldl (hourlyRowsStep hourly prevMap) rows)
        = rowsOutSum rows
          + (sel.map (fun c => outTotal (hourDeltas hourly prevMap c))).sum := by
  intro sel
  induction sel with
  | nil => intro rows _; simp
  | cons c cs ih =>
    intro rows hnd
    have hnd' : ((hourlyRowsStep hourly prevMap rows c).map Prod.fst).Nodup := by
      rw [hourlyRowsStep_keys]
      exact addRowKeys_keys_nodup _ rows hnd
    rw [List.foldl_cons, ih _ hnd', hourlyRowsStep_sum hourly prevMap rows c hnd]
    simp only [List.map_cons, List.sum_cons]
    ring

theorem apiHourlyRows_sum (hourly : HourlySeries) (date : String) :
    rowsOutSum (apiHourlyRows hourly date)
      = ((((hourly.map Prod.fst).insertionSort (· ≤ ·)).filter
          (fun k => strStartsWith k date)).map
          (fun c => outTotal (hourDeltas hourly
            (((hourly.map Prod.fst).insertionSort (· ≤ ·)).tail.zip
              ((hourly.map Prod.fst).insertionSort (· ≤ ·))) c))).sum := by
  unfold apiHourlyRows
  rw [hourlyRows_fold_sum hourly _ _ [] (by simp)]
  simp [rowsOutSum]

theorem bump_lookup (acc : List (String × ℤ)) (d : String) (v : ℤ) (d' : String) :
    alookup d' (bump acc d v)
      = if d' = d then some ((alookup d acc).getD 0 + v) else alookup d' acc := by
  induction acc with
  | nil =>
    rw [bump]
    by_cases hd : d' = d
    · subst hd
      simp [alookup]
    · have hd2 : ¬d = d' := fun h => hd (Eq.symm h)
      simp [alookup, hd, hd2]
  | cons q rest ih =>
    obtain ⟨d'', x⟩ := q
    rw [bump]
    by_cases h1 : d'' = d
    · subst h1
      rw [if_pos rfl]
      by_cases h2 : d' = d''
      · subst h2
        rw [alookup, if_pos rfl, if_pos rfl, alookup, if_pos rfl]
        rfl
      · rw [alookup, if_neg (fun h => h2 h.symm), if_neg h2, alookup,
          if_neg (fun h => h2 h.symm)]
    · rw [if_neg h1]
      by_cases h2 : d'' = d'
      · rw [alookup, if_pos h2]
        have hd : ¬d' = d := fun h => h1 (h2.trans h)
        rw [if_neg hd, alookup, if_pos h2]
      · rw [alookup, if_neg h2, ih]
        by_cases h4 : d' = d
        · subst h4
          rw [if_pos rfl, if_pos rfl, alookup, if_neg h1]
        · rw [if_neg h4, if_neg h4, alookup, if_neg h2]

theorem bucket_fold_lookup (dk : String) :
    ∀ (l : List (String × DeltaEntry)) (acc : List (String × ℤ)) (d : String),
      (alookup d (l.foldl
          (fun a e => if e.2.has_out then bump a dk e.2.out else a) acc)).getD 0
        = (alookup d acc).getD 0 + (if d = dk then outTotal l else 0) := by
  intro l
  induction l with
  | nil =>
    intro acc d
    simp [outTotal]
  | cons e rest ih =>
    intro acc d
    rw [List.foldl_cons]
    by_cases ho : e.2.has_out
    · rw [if_pos ho, ih]
      rw [bump_lookup]
      by_cases hd : d = dk
      · subst hd
        rw [if_pos rfl, if_pos rfl, if_pos rfl]
        have hsplit : outTotal (e :: rest) = e.2.out + outTotal rest := by
          simp [outTotal, ho]
        rw [hsplit]
        simp only [Option.getD_some]
        ring
      · rw [if_neg hd, if_neg hd, if_neg hd]
    · rw [if_neg ho, ih]
      by_cases hd : d = dk
      · subst hd
        have hsplit : outTotal (e :: rest) = outTotal rest := by
          simp [outTotal, ho]
        rw [if_pos rfl, if_pos rfl, hsplit]
      · rw [if_neg hd, if_neg hd]

theorem dailyStep_lookup (hourly : HourlySeries) (acc : List (String × ℤ))
    (pair : String × String) (d : String) :
    (alookup d (dailyStep hourly acc pair)).getD 0
      = (alookup d acc).getD 0
        + (if dateFromHourKey pair.2 = some d then outTotal (pairDeltas hourly pair)
           else 0) := by
  unfold dailyStep
  rcases hdf : dateFromHourKey pair.2 with _ | dateKey
  · simp
  · rw [bucket_fold_lookup]
    by_cases hd : d = dateKey
    · subst hd
      rw [if_pos rfl, if_pos rfl]
    · rw [if_neg hd, if_neg (fun h => hd (Option.some.inj h).symm)]

theorem daily_fold_lookup (hourly : HourlySeries) :
    ∀ (pairs : List (String × String)) (acc : List (String × ℤ)) (d : String),
      (alookup d (pairs.foldl (dailyStep hourly) acc)).getD 0
        = (alookup d acc).getD 0
          + (pairs.map (fun pr =>
              if dateFromHourKey pr.2 = some d then outTotal (pairDeltas hourly pr)
              else 0)).sum := by
  intro pairs
  induction pairs with
  | nil => intro acc d; simp
  | cons pr rest ih =>
    intro acc d
    rw [List.foldl_cons, ih, dailyStep_lookup]
    simp only [List.map_cons, List.sum_cons]
    ring

theorem apiDailyOutboundTotal_sum (hourly : HourlySeries) (date : String) :
    apiDailyOutboundTotal hourly date
      = (((((hourly.map Prod.fst).insertionSort (· ≤ ·)).zip
          ((hourly.map Prod.fst).insertionSort (· ≤ ·)).tail).map
          (fun pr =>
            if dateFromHourKey pr.2 = some date then outTotal (pairDeltas hourly pr)
            else 0))).sum := by
  unfold apiDailyOutboundTotal apiDailyOutTotals
  rw [daily_fold_lookup]
  simp [alookup]

theorem walkFrom_map_snd : ∀ (ks : List String) (po : Option String),
    (walkFrom po ks).map Prod.snd = ks := by
  intro ks
  induction ks with
  | nil => intro po; rfl
  | cons k rest ih =>
    intro po
    simp [walkFrom, ih]

theorem alookup_zip_none {β : Type} (k : String) :
    ∀ (l1 : List String) (l2 : List β), k ∉ l1 → alookup k (l1.zip l2) = none := by
  intro l1
  induction l1 with
  | nil => intro l2 _; rfl
  | cons a rest ih =>
    intro l2 hk
    cases l2 with
    | nil => rfl
    | cons b bs =>
      have hak : ¬a = k := by
        intro h
        rw [h] at hk
        exact hk (List.mem_cons_self k rest)
      rw [List.zip_cons_cons, alookup, if_neg hak]
      exact ih bs (fun hm => hk (List.mem_cons_of_mem _ hm))

theorem walk_prev_lookup : ∀ (rest : List String) (p : String),
    (p :: rest).Nodup →
    ∀ pr ∈ walkFrom (some p) rest, alookup pr.2 (rest.zip (p :: rest)) = pr.1 := by
  intro rest
  induction rest with
  | nil => intro p _ pr hpr; cases hpr
  | cons c rest' ih =>
    intro p hnd pr hpr
    rw [walkFrom] at hpr
    rw [List.zip_cons_cons]
    rcases List.mem_cons.mp hpr with he | hm
    · subst he
      show alookup c ((c, p) :: rest'.zip (c :: rest')) = some p
      rw [alookup, if_pos rfl]
    · have hsnd : pr.2 ∈ rest' := by
        have hmap := walkFrom_map_snd rest' (some c)
        rw [← hmap]
        exact List.mem_map_of_mem Prod.snd hm
      have hcne : ¬c = pr.2 := by
        intro h
        have hc : c ∉ rest' := (List.nodup_cons.mp (List.nodup_cons.mp hnd).2).1
        rw [h] at hc
        exact hc hsnd
      rw [alookup, if_neg hcne]
      exact ih c (List.nodup_cons.mp hnd).2 pr hm

theorem walkFrom_some_eq_zip : ∀ (ks : List String) (p : String),
    walkFrom (some p) ks = ((p :: ks).zip ks).map (fun q => (some q.1, q.2)) := by
  intro ks
  induction ks with
  | nil => intro p; rfl
  | cons k rest ih =>
    intro p
    rw [walkFrom, List.zip_cons_cons, List.map_cons, ih k]

theorem zip_shift_map_snd : ∀ (l : List String) (a : String),
    ((a :: l).zip l).map Prod.snd = l := by
  intro l
  induction l with
  | nil => intro a; rfl
  | cons b l' ih =>
    intro a
    rw [List.zip_cons_cons, List.map_cons, ih b]

/-- The bridge between the two read APIs: over one sorted, duplicate-free
key list whose keys relate `startswith date` and "date of key is `date`"
the same way, the per-hour sums of `api_hourly` and the pairwise
accumulation of `api_daily` add the very same delta aggregates. -/
theorem sum_walk_eq (hourly : HourlySeries) (date : String) :
    ∀ ks : List String, ks.Nodup →
      (∀ k ∈ ks, (strStartsWith k date = true ↔ dateFromHourKey k = some date)) →
      ((ks.filter (fun k => strStartsWith k date)).map
        (fun c => outTotal (hourDeltas hourly (ks.tail.zip ks) c))).sum
        = ((ks.zip ks.tail).map
            (fun pr => if dateFromHourKey pr.2 = some date
              then outTotal (pairDeltas hourly pr) else 0)).sum := by
  intro ks hnd hwf
  rw [sum_filter_map]
  cases ks with
  | nil => simp
  | cons k rest =>
    simp only [List.map_cons, List.sum_cons]
    have hheadpm : alookup k ((k :: rest).tail.zip (k :: rest)) = none :=
      alookup_zip_none k rest (k :: rest) (List.nodup_cons.mp hnd).1
    have hhead0 : (if strStartsWith k date
        then outTotal (hourDeltas hourly ((k :: rest).tail.zip (k :: rest)) k)
        else 0) = 0 := by
      have hd0 : hourDeltas hourly ((k :: rest).tail.zip (k :: rest)) k
          = deltaByName [] ((alookup k hourly).getD []) := by
        unfold hourDeltas
        rw [hheadpm]
      rw [hd0, outTotal_deltaByName_nil]
      exact ite_self 0
    rw [hhead0, zero_add]
    have hzip : ((k :: rest).zip (k :: rest).tail) = ((k :: rest).zip rest) := rfl
    rw [hzip]
    have hreindex : ∀ (f : String → ℤ),
        rest.map f = ((k :: rest).zip rest).map (fun q => f q.2) := by
      intro f
      conv_lhs => rw [← zip_shift_map_snd rest k]
      rw [List.map_map]
      rfl
    rw [hreindex]
    refine congrArg List.sum (List.map_congr_left ?_)
    intro q hq
    have hq2 : q.2 ∈ rest := by
      rw [← zip_shift_map_snd rest k]
      exact List.mem_map_of_mem Prod.snd hq
    have hwalk : ((some q.1, q.2) : Option String × String)
        ∈ walkFrom (some k) rest := by
      rw [walkFrom_some_eq_zip rest k]
      exact List.mem_map_of_mem (fun q => (some q.1, q.2)) hq
    have hpm : alookup q.2 (rest.zip (k :: rest)) = some q.1 :=
      walk_prev_lookup rest k hnd ((some q.1, q.2)) hwalk
    have hdeltas : hourDeltas hourly (rest.zip (k :: rest)) q.2
        = pairDeltas hourly q := by
      unfold hourDeltas pairDeltas
      rw [hpm]
    have hiff := hwf q.2 (List.mem_cons_of_mem k hq2)
    show (if strStartsWith q.2 date
        then outTotal (hourDeltas hourly (rest.zip (k :: rest)) q.2) else 0)
      = if dateFromHourKey q.2 = some date then outTotal (pairDeltas hourly q) else 0
    by_cases hP : strStartsWith q.2 date
    · rw [if_pos hP, if_pos (hiff.mp hP), hdeltas]
    · have hP' : ¬strStartsWith q.2 date = true := hP
      rw [if_neg hP, if_neg (fun h => hP' (hiff.mpr h))]

/-- C9: for every stored series (with well-formed, duplicate-free hour
keys) and every date, the sum of all per-hour outbound deltas `api_hourly`
reports for that date equals the daily outbound total `api_daily` reports
for that date — exactly, hence in particular within the claimed 0.001 TB
tolerance (one unit of the 3-place fixed point, computed with
round-half-up and no floating-point accumulation). -/
theorem hourly_daily_roundtrip (hourly : HourlySeries) (date : String)
    (hnd : (hourly.map Prod.fst).Nodup)
    (hwf : ∀ k ∈ hourly.map Prod.fst,
        (strStartsWith k date = true ↔ dateFromHourKey k = some date)) :
    rowsOutSum (apiHourlyRows hourly date) = apiDailyOutboundTotal hourly date
    ∧ |rowsOutSum (apiHourlyRows hourly date)
        - apiDailyOutboundTotal hourly date| ≤ 1 := by
  have hperm := List.perm_insertionSort (fun a b : String => a ≤ b)
    (hourly.map Prod.fst)
  have hndk : ((hourly.map Prod.fst).insertionSort (· ≤ ·)).Nodup :=
    hperm.nodup_iff.mpr hnd
  have hwfk : ∀ k ∈ (hourly.map Prod.fst).insertionSort (· ≤ ·),
      (strStartsWith k date = true ↔ dateFromHourKey k = some date) :=
    fun k hk => hwf k (hperm.mem_iff.mp hk)
  have heq : rowsOutSum (apiHourlyRows hourly date)
      = apiDailyOutboundTotal hourly date := by
    rw [apiHourlyRows_sum, apiDailyOutboundTotal_sum]
    exact sum_walk_eq hourly date _ hndk hwfk
  refine ⟨heq, ?_⟩
  rw [heq]
  simp

/-- Witness for `hourly_daily_roundtrip` on a two-hour series with one
server gaining exactly 1 TB. -/
theorem hourly_daily_roundtrip_witness :
    (([("2024-01-01 00:00", [("1", ⟨"web", some 0, none⟩)]),
       ("2024-01-01 01:00", [("1", ⟨"web", some 1099511627776, none⟩)])] :
        HourlySeries).map Prod.fst).Nodup
    ∧ rowsOutSum (apiHourlyRows
        [("2024-01-01 00:00", [("1", ⟨"web", some 0, none⟩)]),
         ("2024-01-01 01:00", [("1", ⟨"web", some 1099511627776, none⟩)])]
        "2024-01-01")
      = apiDailyOutboundTotal
        [("2024-01-01 00:00", [("1", ⟨"web", some 0, none⟩)]),
         ("2024-01-01 01:00", [("1", ⟨"web", some 1099511627776, none⟩)])]
        "2024-01-01" :=
  ⟨by decide,
    (hourly_daily_roundtrip
      [("2024-01-01 00:00", [("1", ⟨"web", some 0, none⟩)]),
       ("2024-01-01 01:00", [("1", ⟨"web", some 1099511627776, none⟩)])]
      "2024-01-01" (by decide) (by decide)).1⟩
